import Mathlib

/-
Verification of the monkey-rs front end: a shallow embedding of the lexer
(src/lexer.rs), the AST (src/ast.rs) and the recursive-descent parser
(src/parser.rs), together with theorems about the embedded code.

Modelling conventions:
  - Source text is a list of byte values (Rust operates on input.as_bytes()).
  - Rust panics (the unwrap in Lexer::read_number) are modelled by Option:
    a function that can panic returns none exactly when the Rust code aborts.
  - The while loops of the lexer and the statement loop of the parser are
    total structural recursions on an explicit bound computed from the state
    (lexMeasure / parserMeasure); theorems below prove that each such
    definition satisfies the unfolding equation of the source loop, so the
    bound is an implementation device only, not a semantic restriction.
-/

set_option maxRecDepth 8000

/-- Modelled from the spec: the crate refers to a module `token` whose file
src/token.rs is not present under src/.  Per spec section 3 the Token type is a
closed tagged variant: end-marker, illegal-byte marker, identifier carrying its
text, integer literal carrying the parsed numeric value, the keyword variants
let/fn/if/else/true/false/return, and the operator and punctuation variants.
The integer payload is the parsed i64 value: Lexer::read_number in
src/lexer.rs builds it with literal.parse().unwrap() and Parser::parse_int in
src/parser.rs moves that payload directly into ast::Literal::Int, whose field
is declared i64 in src/ast.rs. -/
inductive Token where
  | Illegal
  | Eof
  | Ident (s : String)
  | Int (n : Int)
  | Assign
  | Plus
  | Minus
  | Asterisk
  | Slash
  | Bang
  | Eq
  | NotEq
  | Lt
  | Gt
  | Comma
  | Semicolon
  | Lparen
  | Rparen
  | Lbrace
  | Rbrace
  | Func
  | Let
  | If
  | Else
  | True
  | False
  | Return
deriving DecidableEq

/-- The derive(Debug) rendering of a Token, as interpolated by the format
string in Parser::error_next_token. -/
def tokenDebug : Token → String
  | Token.Illegal => "Illegal"
  | Token.Eof => "Eof"
  | Token.Ident s => "Ident(\"" ++ s ++ "\")"
  | Token.Int n => "Int(" ++ toString n ++ ")"
  | Token.Assign => "Assign"
  | Token.Plus => "Plus"
  | Token.Minus => "Minus"
  | Token.Asterisk => "Asterisk"
  | Token.Slash => "Slash"
  | Token.Bang => "Bang"
  | Token.Eq => "Eq"
  | Token.NotEq => "NotEq"
  | Token.Lt => "Lt"
  | Token.Gt => "Gt"
  | Token.Comma => "Comma"
  | Token.Semicolon => "Semicolon"
  | Token.Lparen => "Lparen"
  | Token.Rparen => "Rparen"
  | Token.Lbrace => "Lbrace"
  | Token.Rbrace => "Rbrace"
  | Token.Func => "Func"
  | Token.Let => "Let"
  | Token.If => "If"
  | Token.Else => "Else"
  | Token.True => "True"
  | Token.False => "False"
  | Token.Return => "Return"

/-- src/ast.rs: pub struct Ident(pub String). -/
structure ast.Ident where
  name : String
deriving DecidableEq

/-- src/ast.rs: pub enum Literal, currently only Int(i64). -/
inductive ast.Literal where
  | Int (n : Int)
deriving DecidableEq

/-- src/ast.rs: pub enum Expr. -/
inductive ast.Expr where
  | Literal (l : ast.Literal)
  | Ident (i : ast.Ident)
deriving DecidableEq

/-- src/ast.rs: pub enum Statement. -/
inductive ast.Statement where
  | Let (i : ast.Ident) (e : ast.Expr)
  | Return (e : ast.Expr)
  | Expr (e : ast.Expr)
deriving DecidableEq

/-- src/ast.rs: pub type Block = Vec of Statement. -/
abbrev ast.Block := List ast.Statement

/-- src/ast.rs: pub type Program = Block. -/
abbrev ast.Program := ast.Block

/-- True for the Let variant only; used to state which AST variants the
parser can produce. -/
def stmtIsLet : ast.Statement → Bool
  | ast.Statement.Let _ _ => true
  | _ => false

/-- src/lexer.rs: pub struct Lexer, with the borrowed text as its byte list
and the two cursor fields plus the one-byte register ch. -/
structure Lexer where
  input : List Nat
  position : Nat
  read_position : Nat
  ch : Nat
deriving DecidableEq

/-- src/lexer.rs Lexer::read_char. -/
def Lexer.read_char (L : Lexer) : Lexer :=
  let c := if L.input.length ≤ L.read_position then 0
           else L.input.getD L.read_position 0
  { L with ch := c, position := L.read_position,
           read_position := L.read_position + 1 }

/-- src/lexer.rs Lexer::new: zero-initialised state followed by one
read_char. -/
def Lexer.new (input : List Nat) : Lexer :=
  Lexer.read_char ⟨input, 0, 0, 0⟩

/-- src/lexer.rs Lexer::peek_char. -/
def Lexer.peek_char (L : Lexer) : Nat :=
  if L.input.length ≤ L.read_position then 0
  else L.input.getD L.read_position 0

/-- The whitespace test of Lexer::skip_whitespace: space, newline, tab,
carriage return. -/
def isWs (c : Nat) : Bool :=
  c == 32 || c == 10 || c == 9 || c == 13

/-- The identifier-byte test of the source match arm for letters and the
underscore. -/
def isLetterByte (c : Nat) : Bool :=
  (decide (97 ≤ c) && decide (c ≤ 122)) ||
  (decide (65 ≤ c) && decide (c ≤ 90)) || c == 95

/-- The decimal-digit test of the source match arm for digits. -/
def isDigitByte (c : Nat) : Bool :=
  decide (48 ≤ c) && decide (c ≤ 57)

/-- Upper bound on the number of iterations any of the lexer while loops can
still perform from a given state: the cursor can move at most to one past the
end of the input, and one extra step may happen when ch is nonzero while the
cursor is already past the end. -/
def lexMeasure (L : Lexer) : Nat :=
  2 * (L.input.length + 1 - min L.read_position (L.input.length + 1)) +
    (if L.ch = 0 then 0 else 1)

/-- The generic shape of the three lexer while loops (skip_whitespace and the
scanning loops of read_identifier and read_number): while the guard holds on
ch, call read_char.  The Nat argument is the loop bound; the theorems
scan_eq below prove the source loop equation, for the bound lexMeasure. -/
def Lexer.scan_go (g : Nat → Bool) : Nat → Lexer → Lexer
  | 0, L => L
  | n + 1, L => if g L.ch then Lexer.scan_go g n L.read_char else L

/-- src/lexer.rs Lexer::skip_whitespace: while ch is whitespace, read_char. -/
def Lexer.skip_whitespace (L : Lexer) : Lexer :=
  Lexer.scan_go isWs (lexMeasure L) L

/-- The keyword table of Lexer::read_identifier; Rust compares the literal
byte slice against the keyword strings (str equality is byte equality), and on
a miss wraps the matched text in Token::Ident. -/
def keywordToken (lit : List Nat) : Token :=
  if lit = [102, 110] then Token.Func
  else if lit = [108, 101, 116] then Token.Let
  else if lit = [105, 102] then Token.If
  else if lit = [101, 108, 115, 101] then Token.Else
  else if lit = [116, 114, 117, 101] then Token.True
  else if lit = [102, 97, 108, 115, 101] then Token.False
  else if lit = [114, 101, 116, 117, 114, 110] then Token.Return
  else Token.Ident ⟨lit.map Char.ofNat⟩

/-- src/lexer.rs Lexer::read_identifier: remember start, scan the maximal
letter run, slice input[start..position], look the slice up in the keyword
table. -/
def Lexer.read_identifier (L : Lexer) : Token × Lexer :=
  let start := L.position
  let L2 := Lexer.scan_go isLetterByte (lexMeasure L) L
  (keywordToken ((L2.input.drop start).take (L2.position - start)), L2)

/-- The decimal value of a run of ASCII digit bytes. -/
def digitsVal (s : List Nat) : Nat :=
  s.foldl (fun a d => 10 * a + (d - 48)) 0

/-- Models str::parse::<i64> on the byte slice that read_number extracts: the
run is parsed as a decimal number and the parse fails (Err) exactly when the
slice is empty, holds a non-digit byte, or the value exceeds the i64 maximum
9223372036854775807.  (The scanned slices are always nonempty digit runs, so
only overflow can actually fail here.) -/
def parse_i64 (s : List Nat) : Option Int :=
  if s ≠ [] ∧ s.all isDigitByte ∧ digitsVal s ≤ 9223372036854775807 then
    some (Int.ofNat (digitsVal s))
  else none

/-- src/lexer.rs Lexer::read_number: remember start, scan the maximal digit
run, slice input[start..position], then literal.parse().unwrap().  The unwrap
panics when parse fails, which this embedding renders as none. -/
def Lexer.read_number (L : Lexer) : Option (Token × Lexer) :=
  let start := L.position
  let L2 := Lexer.scan_go isDigitByte (lexMeasure L) L
  match parse_i64 ((L2.input.drop start).take (L2.position - start)) with
  | some n => some (Token.Int n, L2)
  | none => none

/-- The match of src/lexer.rs Lexer::next after skip_whitespace, branch for
branch in source order; the byte values are the character codes of the
punctuation in the source patterns. -/
def Lexer.next_core (M : Lexer) : Option (Token × Lexer) :=
  if M.ch = 61 then
    (if M.peek_char = 61 then some (Token.Eq, M.read_char.read_char)
     else some (Token.Assign, M.read_char))
  else if M.ch = 59 then some (Token.Semicolon, M.read_char)
  else if M.ch = 40 then some (Token.Lparen, M.read_char)
  else if M.ch = 41 then some (Token.Rparen, M.read_char)
  else if M.ch = 44 then some (Token.Comma, M.read_char)
  else if M.ch = 43 then some (Token.Plus, M.read_char)
  else if M.ch = 45 then some (Token.Minus, M.read_char)
  else if M.ch = 47 then some (Token.Slash, M.read_char)
  else if M.ch = 42 then some (Token.Asterisk, M.read_char)
  else if M.ch = 60 then some (Token.Lt, M.read_char)
  else if M.ch = 62 then some (Token.Gt, M.read_char)
  else if M.ch = 33 then
    (if M.peek_char = 61 then some (Token.NotEq, M.read_char.read_char)
     else some (Token.Bang, M.read_char))
  else if M.ch = 123 then some (Token.Lbrace, M.read_char)
  else if M.ch = 125 then some (Token.Rbrace, M.read_char)
  else if isLetterByte M.ch then some M.read_identifier
  else if isDigitByte M.ch then M.read_number
  else if M.ch = 0 then some (Token.Eof, M.read_char)
  else some (Token.Illegal, M.read_char)

/-- src/lexer.rs Lexer::next: skip whitespace, then classify the current
byte. -/
def Lexer.next (L : Lexer) : Option (Token × Lexer) :=
  Lexer.next_core L.skip_whitespace

/-- The lexer state after n calls to next; none as soon as one call
panics. -/
def lexIterate (L : Lexer) : Nat → Option Lexer
  | 0 => some L
  | n + 1 =>
    match Lexer.next L with
    | none => none
    | some (_, L2) => lexIterate L2 n

/-- src/parser.rs: pub enum ParseErrorKind. -/
inductive ParseErrorKind where
  | UnexpectedToken
deriving DecidableEq

/-- src/parser.rs: pub struct ParseError. -/
structure ParseError where
  kind : ParseErrorKind
  msg : String
deriving DecidableEq

/-- src/parser.rs: pub type ParseErrors = Vec of ParseError. -/
abbrev ParseErrors := List ParseError

/-- src/parser.rs: pub struct Parser, holding the lexer, the two-token
lookahead window and the accumulated errors. -/
structure Parser where
  lexer : Lexer
  curr_token : Token
  peek_token : Token
  errors : ParseErrors
deriving DecidableEq

/-- src/parser.rs Parser::next_token: shift peek into curr and pull a new
peek from the lexer; none when the lexer call panics. -/
def Parser.next_token (P : Parser) : Option Parser :=
  match P.lexer.next with
  | none => none
  | some (t, L) => some ⟨L, P.peek_token, t, P.errors⟩

/-- src/parser.rs Parser::new: both lookahead slots start as Eof, the error
list empty, then next_token twice. -/
def Parser.new (L : Lexer) : Option Parser :=
  match Parser.next_token ⟨L, Token.Eof, Token.Eof, []⟩ with
  | none => none
  | some P1 => P1.next_token

/-- src/parser.rs Parser::curr_token_is. -/
def Parser.curr_token_is (P : Parser) (tok : Token) : Bool :=
  decide (P.curr_token = tok)

/-- src/parser.rs Parser::peek_token_is. -/
def Parser.peek_token_is (P : Parser) (tok : Token) : Bool :=
  decide (P.peek_token = tok)

/-- src/parser.rs Parser::error_next_token: push an UnexpectedToken error
whose message interpolates the Debug forms of the expected token and of the
peek token. -/
def Parser.error_next_token (P : Parser) (tok : Token) : Parser :=
  ⟨P.lexer, P.curr_token, P.peek_token,
   P.errors ++ [⟨ParseErrorKind.UnexpectedToken,
     "expected next token to be " ++ tokenDebug tok ++ ", got " ++
       tokenDebug P.peek_token ++ " instead"⟩]⟩

/-- src/parser.rs Parser::expect_peek_token: advance on a match, record an
error and report false otherwise. -/
def Parser.expect_peek_token (P : Parser) (tok : Token) : Option (Bool × Parser) :=
  if P.peek_token_is tok then
    match P.next_token with
    | none => none
    | some Q => some (true, Q)
  else some (false, P.error_next_token tok)

/-- src/parser.rs Parser::parse_ident: clone the identifier text out of the
current token; no state change. -/
def Parser.parse_ident (P : Parser) : Option ast.Ident × Parser :=
  (match P.curr_token with
   | Token.Ident s => some ⟨s⟩
   | _ => none, P)

/-- src/parser.rs Parser::parse_ident_expression. -/
def Parser.parse_ident_expression (P : Parser) : Option ast.Expr × Parser :=
  match P.parse_ident with
  | (some i, Q) => (some (ast.Expr.Ident i), Q)
  | (none, Q) => (none, Q)

/-- src/parser.rs Parser::parse_int: wrap the current integer token as a
literal expression; no state change. -/
def Parser.parse_int (P : Parser) : Option ast.Expr × Parser :=
  (match P.curr_token with
   | Token.Int n => some (ast.Expr.Literal (ast.Literal.Int n))
   | _ => none, P)

/-- src/parser.rs Parser::parse_int_expression. -/
def Parser.parse_int_expression (P : Parser) : Option ast.Expr × Parser :=
  P.parse_int

/-- src/parser.rs Parser::parse_expression: dispatch on the current token;
identifier and integer tokens produce an expression, anything else produces
None with no other effect. -/
def Parser.parse_expression (P : Parser) : Option ast.Expr × Parser :=
  match P.curr_token with
  | Token.Ident _ => P.parse_ident_expression
  | Token.Int _ => P.parse_int_expression
  | _ => (none, P)

/-- src/parser.rs Parser::parse_let_statement, step for step: require peek to
be an identifier (else record an error built from the peek token itself and
fail), advance, capture the name, require peek to be Assign, advance onto the
expression, parse it, optionally consume a trailing semicolon, and produce the
Let node.  The outer none records a panic of the underlying lexer. -/
def Parser.parse_let_statement (P : Parser) : Option (Option ast.Statement × Parser) :=
  match P.peek_token with
  | Token.Ident _ =>
    (match P.next_token with
     | none => none
     | some P1 =>
       match P1.parse_ident with
       | (none, P2) => some (none, P2)
       | (some name, P2) =>
         match P2.expect_peek_token Token.Assign with
         | none => none
         | some (false, P3) => some (none, P3)
         | some (true, P3) =>
           match P3.next_token with
           | none => none
           | some P4 =>
             match P4.parse_expression with
             | (none, P5) => some (none, P5)
             | (some e, P5) =>
               if P5.peek_token_is Token.Semicolon then
                 match P5.next_token with
                 | none => none
                 | some P6 => some (some (ast.Statement.Let name e), P6)
               else some (some (ast.Statement.Let name e), P5))
  | _ => some (none, P.error_next_token P.peek_token)

/-- src/parser.rs Parser::parse_statement: let dispatches to
parse_let_statement, every other current token yields None with no other
effect. -/
def Parser.parse_statement (P : Parser) : Option (Option ast.Statement × Parser) :=
  match P.curr_token with
  | Token.Let => P.parse_let_statement
  | _ => some (none, P)

/-- 0 for the end-marker, 1 for every other token. -/
def tokRank (t : Token) : Nat :=
  if t = Token.Eof then 0 else 1

/-- Upper bound on the number of iterations the parse_program loop can still
perform: every iteration advances the underlying lexer at least once, and the
two lookahead slots can delay the end-marker by at most two further
iterations. -/
def parserMeasure (P : Parser) : Nat :=
  2 * lexMeasure P.lexer + tokRank P.curr_token + tokRank P.peek_token

/-- The while loop of src/parser.rs Parser::parse_program with an explicit
loop bound: while the current token is not Eof, parse a statement, push it on
success, and advance.  The theorem parse_program_eq below proves the source
loop equation for the bound parserMeasure + 1, so the 0 case is never
reached from parse_program. -/
def Parser.parse_program_go : Nat → Parser → Option (ast.Program × Parser)
  | 0, _ => none
  | n + 1, P =>
    if P.curr_token = Token.Eof then some ([], P)
    else
      match P.parse_statement with
      | none => none
      | some (o, P1) =>
        match P1.next_token with
        | none => none
        | some P2 =>
          match Parser.parse_program_go n P2 with
          | none => none
          | some (rest, P3) =>
            some ((match o with
                   | some s => s :: rest
                   | none => rest), P3)

/-- src/parser.rs Parser::parse_program. -/
def Parser.parse_program (P : Parser) : Option (ast.Program × Parser) :=
  Parser.parse_program_go (parserMeasure P + 1) P

/-- The whole front end on one input: build the lexer, prime the parser, run
parse_program, return the program and the error list (none on a panic). -/
def parse_input (input : List Nat) : Option (ast.Program × ParseErrors) :=
  match Parser.new (Lexer.new input) with
  | none => none
  | some P =>
    match P.parse_program with
    | none => none
    | some (prog, Q) => some (prog, Q.errors)

/-- The byte list of an ASCII source string. -/
def strBytes (s : String) : List Nat :=
  s.data.map Char.toNat

/-- True when the current token is one of the two expression heads the parser
supports, identifier or integer literal. -/
def tokIsExprHead : Token → Bool
  | Token.Ident _ => true
  | Token.Int _ => true
  | _ => false

/-- Fixture: a parser state whose current token is a semicolon, obtained from
the one-byte input made of byte 59 after both priming pulls: the lexer is
exhausted, the error list empty. -/
def pSemi : Parser :=
  ⟨⟨[59], 2, 3, 0⟩, Token.Semicolon, Token.Eof, []⟩

/-- Fixture: a parser state at the end-marker over the empty input. -/
def pDone : Parser :=
  ⟨⟨[], 2, 3, 0⟩, Token.Eof, Token.Eof, []⟩

/-- Fixture: an exhausted lexer state over the empty input, as produced by one
next call on Lexer.new []. -/
def lexDone : Lexer :=
  ⟨[], 1, 2, 0⟩

/-- Fixture: the parser state primed over the input let a = 1; (current token
let, peek the identifier a). -/
def pLetA : Parser :=
  ⟨⟨strBytes "let a = 1;", 5, 6, 32⟩, Token.Let, Token.Ident "a", []⟩

/- Basic facts about read_char and the loop bound. -/

theorem Lexer.read_char_input (L : Lexer) : L.read_char.input = L.input := rfl

theorem Lexer.read_char_rp (L : Lexer) :
    L.read_char.read_position = L.read_position + 1 := rfl

theorem Lexer.read_char_pos (L : Lexer) :
    L.read_char.position = L.read_position := rfl

theorem Lexer.read_char_ch_of_ge (L : Lexer)
    (h : L.input.length ≤ L.read_position) : L.read_char.ch = 0 := by
  simp [Lexer.read_char, h]

theorem lexMeasure_read_char_le (L : Lexer) :
    lexMeasure L.read_char ≤ lexMeasure L := by
  by_cases h : L.input.length ≤ L.read_position
  · simp only [lexMeasure, Lexer.read_char, h, if_true]
    split <;> omega
  · simp only [lexMeasure, Lexer.read_char, h, if_false]
    split <;> split <;> omega

theorem lexMeasure_read_char_lt (L : Lexer)
    (h : L.ch ≠ 0 ∨ L.read_position < L.input.length) :
    lexMeasure L.read_char < lexMeasure L := by
  by_cases hl : L.input.length ≤ L.read_position
  · have hch : L.ch ≠ 0 := by
      rcases h with h | h
      · exact h
      · omega
    simp only [lexMeasure, Lexer.read_char, hl, if_true]
    split <;> omega
  · simp only [lexMeasure, Lexer.read_char, hl, if_false]
    split <;> split <;> omega

theorem lexMeasure_pos (L : Lexer) (h : L.ch ≠ 0) : 1 ≤ lexMeasure L := by
  simp only [lexMeasure, if_neg h]
  omega

theorem lexMeasure_zero_ch (L : Lexer) (h : lexMeasure L = 0) : L.ch = 0 := by
  by_cases hch : L.ch = 0
  · exact hch
  · exact absurd h (by have := lexMeasure_pos L hch; omega)

theorem lexMeasure_zero_rp (L : Lexer) (h : lexMeasure L = 0) :
    L.input.length ≤ L.read_position := by
  simp only [lexMeasure] at h
  omega

/- The generic scanning loop: preservation, progress and the source loop
equation.  The guard hypothesis records that every loop guard of the source
(whitespace, letters, digits) rejects the 0 sentinel. -/

theorem scan_go_input (g : Nat → Bool) :
    ∀ (n : Nat) (L : Lexer), (Lexer.scan_go g n L).input = L.input := by
  intro n
  induction n with
  | zero => intro L; rfl
  | succ n ih =>
    intro L
    simp only [Lexer.scan_go]
    split
    · rw [ih L.read_char, Lexer.read_char_input]
    · rfl

theorem scan_go_rp_le (g : Nat → Bool) :
    ∀ (n : Nat) (L : Lexer),
      L.read_position ≤ (Lexer.scan_go g n L).read_position := by
  intro n
  induction n with
  | zero => intro L; exact Nat.le_refl _
  | succ n ih =>
    intro L
    simp only [Lexer.scan_go]
    split
    · have := ih L.read_char
      rw [Lexer.read_char_rp] at this
      omega
    · exact Nat.le_refl _

theorem scan_go_measure_le (g : Nat → Bool) (hg : ∀ c, g c = true → c ≠ 0) :
    ∀ (n : Nat) (L : Lexer),
      lexMeasure (Lexer.scan_go g n L) ≤ lexMeasure L := by
  intro n
  induction n with
  | zero => intro L; exact Nat.le_refl _
  | succ n ih =>
    intro L
    simp only [Lexer.scan_go]
    split
    · rename_i hgL
      have h1 := ih L.read_char
      have h2 := lexMeasure_read_char_lt L (Or.inl (hg _ hgL))
      omega
    · exact Nat.le_refl _

theorem scan_go_measure_lt (g : Nat → Bool) (hg : ∀ c, g c = true → c ≠ 0)
    (n : Nat) (L : Lexer) (hgL : g L.ch = true) (hn : 1 ≤ n) :
    lexMeasure (Lexer.scan_go g n L) < lexMeasure L := by
  obtain ⟨m, rfl⟩ : ∃ m, n = m + 1 := ⟨n - 1, by omega⟩
  simp only [Lexer.scan_go, hgL, if_true]
  have h1 := scan_go_measure_le g hg m L.read_char
  have h2 := lexMeasure_read_char_lt L (Or.inl (hg _ hgL))
  omega

theorem scan_go_not (g : Nat → Bool) (n : Nat) (L : Lexer)
    (h : g L.ch = false) : Lexer.scan_go g n L = L := by
  cases n <;> simp [Lexer.scan_go, h]

theorem scan_go_rp_lt (g : Nat → Bool) (n : Nat) (L : Lexer)
    (hgL : g L.ch = true) (hn : 1 ≤ n) :
    L.read_position < (Lexer.scan_go g n L).read_position := by
  obtain ⟨m, rfl⟩ : ∃ m, n = m + 1 := ⟨n - 1, by omega⟩
  simp only [Lexer.scan_go, hgL, if_true]
  have := scan_go_rp_le g m L.read_char
  rw [Lexer.read_char_rp] at this
  omega

theorem scan_go_pos (g : Nat → Bool) :
    ∀ (n : Nat) (L : Lexer),
      (Lexer.scan_go g n L).position = L.position ∨
        L.read_position ≤ (Lexer.scan_go g n L).position := by
  intro n
  induction n with
  | zero => intro L; exact Or.inl rfl
  | succ n ih =>
    intro L
    simp only [Lexer.scan_go]
    split
    · rcases ih L.read_char with h | h
      · rw [h, Lexer.read_char_pos]
        exact Or.inr (Nat.le_refl _)
      · rw [Lexer.read_char_rp] at h
        exact Or.inr (by omega)
    · exact Or.inl rfl

theorem scan_go_pos_ge (g : Nat → Bool) (n : Nat) (L : Lexer)
    (hgL : g L.ch = true) (hn : 1 ≤ n) :
    L.read_position ≤ (Lexer.scan_go g n L).position := by
  obtain ⟨m, rfl⟩ : ∃ m, n = m + 1 := ⟨n - 1, by omega⟩
  simp only [Lexer.scan_go, hgL, if_true]
  rcases scan_go_pos g m L.read_char with h | h
  · rw [h, Lexer.read_char_pos]
  · rw [Lexer.read_char_rp] at h
    omega

theorem scan_go_guard (g : Nat → Bool) (hg : ∀ c, g c = true → c ≠ 0) :
    ∀ (n : Nat) (L : Lexer), lexMeasure L ≤ n →
      g (Lexer.scan_go g n L).ch = false := by
  intro n
  induction n with
  | zero =>
    intro L hL
    have hch : L.ch = 0 := lexMeasure_zero_ch L (Nat.le_zero.mp hL)
    have hz : (Lexer.scan_go g 0 L).ch = 0 := by simp [Lexer.scan_go, hch]
    rw [hz]
    cases hgc : g 0
    · rfl
    · exact absurd (hg 0 hgc) (by simp)
  | succ n ih =>
    intro L hL
    simp only [Lexer.scan_go]
    split
    · rename_i hgL
      exact ih L.read_char (by have := lexMeasure_read_char_lt L (Or.inl (hg _ hgL)); omega)
    · rename_i hgL
      simpa using hgL

theorem scan_go_stable (g : Nat → Bool) (hg : ∀ c, g c = true → c ≠ 0) :
    ∀ (n m : Nat) (L : Lexer), lexMeasure L ≤ n → lexMeasure L ≤ m →
      Lexer.scan_go g n L = Lexer.scan_go g m L := by
  intro n
  induction n with
  | zero =>
    intro m L hn _
    have hch : L.ch = 0 := lexMeasure_zero_ch L (Nat.le_zero.mp hn)
    have hgc : g L.ch = false := by
      cases hgc : g L.ch
      · rfl
      · exact absurd (hg _ hgc) (by simp [hch])
    rw [scan_go_not g 0 L hgc, scan_go_not g m L hgc]
  | succ n ih =>
    intro m L hn hm
    cases m with
    | zero =>
      have hch : L.ch = 0 := lexMeasure_zero_ch L (Nat.le_zero.mp hm)
      have hgc : g L.ch = false := by
        cases hgc : g L.ch
        · rfl
        · exact absurd (hg _ hgc) (by simp [hch])
      rw [scan_go_not g _ L hgc, scan_go_not g 0 L hgc]
    | succ m =>
      simp only [Lexer.scan_go]
      split
      · rename_i hgL
        have hlt := lexMeasure_read_char_lt L (Or.inl (hg _ hgL))
        exact ih m L.read_char (by omega) (by omega)
      · rfl

theorem isWs_ne_zero : ∀ c, isWs c = true → c ≠ 0 := by
  intro c h
  simp only [isWs, Bool.or_eq_true, beq_iff_eq] at h
  omega

theorem isLetterByte_ne_zero : ∀ c, isLetterByte c = true → c ≠ 0 := by
  intro c h
  simp only [isLetterByte, Bool.or_eq_true, Bool.and_eq_true, decide_eq_true_eq,
    beq_iff_eq] at h
  omega

theorem isDigitByte_ne_zero : ∀ c, isDigitByte c = true → c ≠ 0 := by
  intro c h
  simp only [isDigitByte, Bool.and_eq_true, decide_eq_true_eq] at h
  omega

/-- Faithfulness of the embedded skip_whitespace: it satisfies the unfolding
equation of the source while loop. -/
theorem skip_whitespace_eq (L : Lexer) :
    L.skip_whitespace = if isWs L.ch then L.read_char.skip_whitespace else L := by
  unfold Lexer.skip_whitespace
  cases hgc : isWs L.ch
  · simp only [if_false, Bool.false_eq_true]
    exact scan_go_not _ _ _ hgc
  · simp only [if_true]
    have h1 : 1 ≤ lexMeasure L := lexMeasure_pos L (isWs_ne_zero _ hgc)
    obtain ⟨k, hk⟩ : ∃ k, lexMeasure L = k + 1 := ⟨lexMeasure L - 1, by omega⟩
    rw [hk]
    simp only [Lexer.scan_go, hgc, if_true]
    exact scan_go_stable isWs isWs_ne_zero k (lexMeasure L.read_char) L.read_char
      (by have := lexMeasure_read_char_lt L (Or.inl (isWs_ne_zero _ hgc)); omega)
      (Nat.le_refl _)

/- Case lemmas for the branches of next_core: one read_char, two read_chars,
or a scanning loop whose guard holds at entry. -/

theorem rc_case (M : Lexer) :
    M.read_char.input = M.input ∧
    M.read_position < M.read_char.read_position ∧
    M.read_position ≤ M.read_char.position ∧
    lexMeasure M.read_char ≤ lexMeasure M ∧
    (M.ch ≠ 0 → lexMeasure M.read_char < lexMeasure M) := by
  refine ⟨rfl, ?_, ?_, lexMeasure_read_char_le M,
    fun hch => lexMeasure_read_char_lt M (Or.inl hch)⟩
  · rw [Lexer.read_char_rp]
    omega
  · rw [Lexer.read_char_pos]

theorem rc2_case (M : Lexer) :
    M.read_char.read_char.input = M.input ∧
    M.read_position < M.read_char.read_char.read_position ∧
    M.read_position ≤ M.read_char.read_char.position ∧
    lexMeasure M.read_char.read_char ≤ lexMeasure M ∧
    (M.ch ≠ 0 → lexMeasure M.read_char.read_char < lexMeasure M) := by
  refine ⟨rfl, ?_, ?_, ?_, fun hch => ?_⟩
  · rw [Lexer.read_char_rp, Lexer.read_char_rp]
    omega
  · rw [Lexer.read_char_pos, Lexer.read_char_rp]
    omega
  · exact Nat.le_trans (lexMeasure_read_char_le M.read_char) (lexMeasure_read_char_le M)
  · exact Nat.lt_of_le_of_lt (lexMeasure_read_char_le M.read_char)
      (lexMeasure_read_char_lt M (Or.inl hch))

theorem scan_case (g : Nat → Bool) (hg : ∀ c, g c = true → c ≠ 0)
    (M : Lexer) (hgL : g M.ch = true) :
    (Lexer.scan_go g (lexMeasure M) M).input = M.input ∧
    M.read_position < (Lexer.scan_go g (lexMeasure M) M).read_position ∧
    M.read_position ≤ (Lexer.scan_go g (lexMeasure M) M).position ∧
    lexMeasure (Lexer.scan_go g (lexMeasure M) M) ≤ lexMeasure M ∧
    lexMeasure (Lexer.scan_go g (lexMeasure M) M) < lexMeasure M := by
  have h1 : 1 ≤ lexMeasure M := lexMeasure_pos M (hg _ hgL)
  exact ⟨scan_go_input g _ M, scan_go_rp_lt g _ M hgL h1, scan_go_pos_ge g _ M hgL h1,
    scan_go_measure_le g hg _ M, scan_go_measure_lt g hg _ M hgL h1⟩

theorem read_number_state (M : Lexer) (t : Token) (L2 : Lexer)
    (h : M.read_number = some (t, L2)) :
    L2 = Lexer.scan_go isDigitByte (lexMeasure M) M := by
  simp only [Lexer.read_number] at h
  split at h
  · injection h with h
    injection h with h1 h2
    exact h2.symm
  · exact Option.noConfusion h

/-- The spec of a successful next_core call: input preserved, the cursor
strictly advanced, position at least at the old read position, the loop bound
not increased, and strictly decreased whenever the classified byte was not the
0 sentinel. -/
theorem next_core_spec (M : Lexer) (t : Token) (L2 : Lexer)
    (h : Lexer.next_core M = some (t, L2)) :
    L2.input = M.input ∧ M.read_position < L2.read_position ∧
    M.read_position ≤ L2.position ∧ lexMeasure L2 ≤ lexMeasure M ∧
    (M.ch ≠ 0 → lexMeasure L2 < lexMeasure M) := by
  unfold Lexer.next_core at h
  by_cases c1 : M.ch = 61
  · rw [if_pos c1] at h
    by_cases cp : M.peek_char = 61
    · rw [if_pos cp] at h
      simp only [Option.some.injEq, Prod.mk.injEq] at h
      obtain ⟨-, h2⟩ := h
      subst h2
      exact rc2_case M
    · rw [if_neg cp] at h
      simp only [Option.some.injEq, Prod.mk.injEq] at h
      obtain ⟨-, h2⟩ := h
      subst h2
      exact rc_case M
  rw [if_neg c1] at h
  by_cases c2 : M.ch = 59
  · rw [if_pos c2] at h
    simp only [Option.some.injEq, Prod.mk.injEq] at h
    obtain ⟨-, h2⟩ := h
    subst h2
    exact rc_case M
  rw [if_neg c2] at h
  by_cases c3 : M.ch = 40
  · rw [if_pos c3] at h
    simp only [Option.some.injEq, Prod.mk.injEq] at h
    obtain ⟨-, h2⟩ := h
    subst h2
    exact rc_case M
  rw [if_neg c3] at h
  by_cases c4 : M.ch = 41
  · rw [if_pos c4] at h
    simp only [Option.some.injEq, Prod.mk.injEq] at h
    obtain ⟨-, h2⟩ := h
    subst h2
    exact rc_case M
  rw [if_neg c4] at h
  by_cases c5 : M.ch = 44
  · rw [if_pos c5] at h
    simp only [Option.some.injEq, Prod.mk.injEq] at h
    obtain ⟨-, h2⟩ := h
    subst h2
    exact rc_case M
  rw [if_neg c5] at h
  by_cases c6 : M.ch = 43
  · rw [if_pos c6] at h
    simp only [Option.some.injEq, Prod.mk.injEq] at h
    obtain ⟨-, h2⟩ := h
    subst h2
    exact rc_case M
  rw [if_neg c6] at h
  by_cases c7 : M.ch = 45
  · rw [if_pos c7] at h
    simp only [Option.some.injEq, Prod.mk.injEq] at h
    obtain ⟨-, h2⟩ := h
    subst h2
    exact rc_case M
  rw [if_neg c7] at h
  by_cases c8 : M.ch = 47
  · rw [if_pos c8] at h
    simp only [Option.some.injEq, Prod.mk.injEq] at h
    obtain ⟨-, h2⟩ := h
    subst h2
    exact rc_case M
  rw [if_neg c8] at h
  by_cases c9 : M.ch = 42
  · rw [if_pos c9] at h
    simp only [Option.some.injEq, Prod.mk.injEq] at h
    obtain ⟨-, h2⟩ := h
    subst h2
    exact rc_case M
  rw [if_neg c9] at h
  by_cases c10 : M.ch = 60
  · rw [if_pos c10] at h
    simp only [Option.some.injEq, Prod.mk.injEq] at h
    obtain ⟨-, h2⟩ := h
    subst h2
    exact rc_case M
  rw [if_neg c10] at h
  by_cases c11 : M.ch = 62
  · rw [if_pos c11] at h
    simp only [Option.some.injEq, Prod.mk.injEq] at h
    obtain ⟨-, h2⟩ := h
    subst h2
    exact rc_case M
  rw [if_neg c11] at h
  by_cases c12 : M.ch = 33
  · rw [if_pos c12] at h
    by_cases cp : M.peek_char = 61
    · rw [if_pos cp] at h
      simp only [Option.some.injEq, Prod.mk.injEq] at h
      obtain ⟨-, h2⟩ := h
      subst h2
      exact rc2_case M
    · rw [if_neg cp] at h
      simp only [Option.some.injEq, Prod.mk.injEq] at h
      obtain ⟨-, h2⟩ := h
      subst h2
      exact rc_case M
  rw [if_neg c12] at h
  by_cases c13 : M.ch = 123
  · rw [if_pos c13] at h
    simp only [Option.some.injEq, Prod.mk.injEq] at h
    obtain ⟨-, h2⟩ := h
    subst h2
    exact rc_case M
  rw [if_neg c13] at h
  by_cases c14 : M.ch = 125
  · rw [if_pos c14] at h
    simp only [Option.some.injEq, Prod.mk.injEq] at h
    obtain ⟨-, h2⟩ := h
    subst h2
    exact rc_case M
  rw [if_neg c14] at h
  by_cases cL : isLetterByte M.ch = true
  · rw [if_pos cL] at h
    simp only [Lexer.read_identifier, Option.some.injEq, Prod.mk.injEq] at h
    obtain ⟨-, h2⟩ := h
    subst h2
    have hs := scan_case isLetterByte isLetterByte_ne_zero M cL
    exact ⟨hs.1, hs.2.1, hs.2.2.1, hs.2.2.2.1, fun _ => hs.2.2.2.2⟩
  rw [if_neg cL] at h
  by_cases cD : isDigitByte M.ch = true
  · rw [if_pos cD] at h
    have h2 := read_number_state M t L2 h
    subst h2
    have hs := scan_case isDigitByte isDigitByte_ne_zero M cD
    exact ⟨hs.1, hs.2.1, hs.2.2.1, hs.2.2.2.1, fun _ => hs.2.2.2.2⟩
  rw [if_neg cD] at h
  by_cases c0 : M.ch = 0
  · rw [if_pos c0] at h
    simp only [Option.some.injEq, Prod.mk.injEq] at h
    obtain ⟨-, h2⟩ := h
    subst h2
    exact rc_case M
  rw [if_neg c0] at h
  simp only [Option.some.injEq, Prod.mk.injEq] at h
  obtain ⟨-, h2⟩ := h
  subst h2
  exact rc_case M

theorem next_core_at_zero (M : Lexer) (h : M.ch = 0) :
    Lexer.next_core M = some (Token.Eof, M.read_char) := by
  simp [Lexer.next_core, h, isLetterByte, isDigitByte]

theorem skip_whitespace_id (L : Lexer) (h : isWs L.ch = false) :
    L.skip_whitespace = L :=
  scan_go_not isWs (lexMeasure L) L h

/-- On the 0 sentinel, next yields the end-marker and performs exactly one
further read_char. -/
theorem next_at_zero (L : Lexer) (h : L.ch = 0) :
    L.next = some (Token.Eof, L.read_char) := by
  have hs : L.skip_whitespace = L := skip_whitespace_id L (by simp [isWs, h])
  unfold Lexer.next
  rw [hs]
  exact next_core_at_zero L h

/-- The spec of a successful next call: input preserved, read cursor strictly
advanced, position at least at the old read position, the loop bound not
increased, strictly decreased when the produced token is not the end-marker,
and also strictly decreased whenever the state was not yet exhausted. -/
theorem next_spec (L : Lexer) (t : Token) (L2 : Lexer)
    (h : L.next = some (t, L2)) :
    L2.input = L.input ∧ L.read_position < L2.read_position ∧
    L.read_position ≤ L2.position ∧ lexMeasure L2 ≤ lexMeasure L ∧
    (t ≠ Token.Eof → lexMeasure L2 < lexMeasure L) ∧
    ((L.ch ≠ 0 ∨ L.read_position < L.input.length) → lexMeasure L2 < lexMeasure L) := by
  unfold Lexer.next at h
  obtain ⟨c1, c2, c3, c4, c5⟩ := next_core_spec L.skip_whitespace t L2 h
  cases hgc : isWs L.ch
  · have hsw : L.skip_whitespace = L := skip_whitespace_id L hgc
    rw [hsw] at c1 c2 c3 c4 c5 h
    refine ⟨c1, c2, c3, c4, ?_, ?_⟩
    · intro ht
      by_cases hch : L.ch = 0
      · rw [next_core_at_zero L hch] at h
        injection h with h
        injection h with h1 h2
        exact absurd h1.symm ht
      · exact c5 hch
    · intro hor
      rcases hor with hch | hlen
      · exact c5 hch
      · by_cases hch : L.ch = 0
        · rw [next_core_at_zero L hch] at h
          injection h with h
          injection h with h1 h2
          subst h2
          exact lexMeasure_read_char_lt L (Or.inr hlen)
        · exact c5 hch
  · have hin : L.skip_whitespace.input = L.input := scan_go_input isWs _ L
    have hrp : L.read_position ≤ L.skip_whitespace.read_position := scan_go_rp_le isWs _ L
    have hlt : lexMeasure L.skip_whitespace < lexMeasure L :=
      scan_go_measure_lt isWs isWs_ne_zero _ L hgc
        (lexMeasure_pos L (isWs_ne_zero _ hgc))
    exact ⟨by rw [c1, hin], by omega, by omega, by omega, fun _ => by omega,
      fun _ => by omega⟩

/-- Faithfulness of the scanning loops at the bound lexMeasure: the generic
loop satisfies the unfolding equation of the source while loops, so
read_identifier and read_number scan exactly as the source does. -/
theorem scan_fuel_eq (g : Nat → Bool) (hg : ∀ c, g c = true → c ≠ 0) (L : Lexer) :
    Lexer.scan_go g (lexMeasure L) L =
      if g L.ch then Lexer.scan_go g (lexMeasure L.read_char) L.read_char else L := by
  cases hgc : g L.ch
  · simp only [if_false, Bool.false_eq_true]
    exact scan_go_not g _ L hgc
  · simp only [if_true]
    have h1 : 1 ≤ lexMeasure L := lexMeasure_pos L (hg _ hgc)
    obtain ⟨k, hk⟩ : ∃ k, lexMeasure L = k + 1 := ⟨lexMeasure L - 1, by omega⟩
    rw [hk]
    simp only [Lexer.scan_go, hgc, if_true]
    exact scan_go_stable g hg k (lexMeasure L.read_char) L.read_char
      (by have := lexMeasure_read_char_lt L (Or.inl (hg _ hgc)); omega)
      (Nat.le_refl _)

/-- After exhaustion (sentinel byte, cursor at or past the end), n + 1 further
next calls all succeed and leave the state with the same input, the sentinel
still set, and the cursor advanced by exactly n + 1. -/
theorem exhausted_iterate (L : Lexer) (h1 : L.ch = 0)
    (h2 : L.input.length ≤ L.read_position) :
    ∀ n, lexIterate L (n + 1) =
      some ⟨L.input, L.read_position + n, L.read_position + n + 1, 0⟩ := by
  intro n
  induction n generalizing L with
  | zero =>
    simp only [lexIterate, next_at_zero L h1]
    simp only [Lexer.read_char, h2, if_true]
    rfl
  | succ n ih =>
    have hstep : lexIterate L (n + 2) = lexIterate L.read_char (n + 1) := by
      simp [lexIterate, next_at_zero L h1]
    rw [hstep, ih L.read_char (L.read_char_ch_of_ge h2)
      (by rw [Lexer.read_char_input, Lexer.read_char_rp]; omega)]
    rw [Lexer.read_char_input, Lexer.read_char_rp]
    simp only [Option.some.injEq, Lexer.mk.injEq, true_and, and_true]
    omega

/-- After exhaustion, the token produced after any number of further calls is
still the end-marker. -/
theorem exhausted_bind_eof (L : Lexer) (h1 : L.ch = 0)
    (h2 : L.input.length ≤ L.read_position) (n : Nat) :
    (lexIterate L n).bind (fun M => (Lexer.next M).map Prod.fst) =
      some Token.Eof := by
  cases n with
  | zero => simp [lexIterate, next_at_zero L h1]
  | succ n =>
    rw [exhausted_iterate L h1 h2 n]
    rw [Option.some_bind]
    rw [next_at_zero _ rfl]
    rfl

/-- From any state, running the lexer for lexMeasure further calls either hits
the numeric-overflow panic or ends on a state that produces the end-marker. -/
theorem reach_eof_aux :
    ∀ (n : Nat) (L : Lexer), lexMeasure L ≤ n →
      lexIterate L n = none ∨
        (lexIterate L n).bind (fun M => (Lexer.next M).map Prod.fst) =
          some Token.Eof := by
  intro n
  induction n with
  | zero =>
    intro L hL
    have h0 : lexMeasure L = 0 := Nat.le_zero.mp hL
    exact Or.inr (exhausted_bind_eof L (lexMeasure_zero_ch L h0)
      (lexMeasure_zero_rp L h0) 0)
  | succ n ih =>
    intro L hL
    by_cases hch : L.ch = 0
    · by_cases hrp : L.input.length ≤ L.read_position
      · exact Or.inr (exhausted_bind_eof L hch hrp (n + 1))
      · cases hnext : L.next with
        | none =>
          left
          simp [lexIterate, hnext]
        | some p =>
          obtain ⟨t, L2⟩ := p
          have hspec := next_spec L t L2 hnext
          have hlt : lexMeasure L2 < lexMeasure L :=
            hspec.2.2.2.2.2 (Or.inr (by omega))
          have hstep : lexIterate L (n + 1) = lexIterate L2 n := by
            simp [lexIterate, hnext]
          rw [hstep]
          exact ih L2 (by omega)
    · cases hnext : L.next with
      | none =>
        left
        simp [lexIterate, hnext]
      | some p =>
        obtain ⟨t, L2⟩ := p
        have hspec := next_spec L t L2 hnext
        have hlt : lexMeasure L2 < lexMeasure L := hspec.2.2.2.2.2 (Or.inl hch)
        have hstep : lexIterate L (n + 1) = lexIterate L2 n := by
          simp [lexIterate, hnext]
        rw [hstep]
        exact ih L2 (by omega)

/- Parser-level lemmas. -/

theorem tokRank_le (u : Token) : tokRank u ≤ 1 := by
  unfold tokRank
  split <;> omega

theorem tokRank_of_ne (u : Token) (h : u ≠ Token.Eof) : tokRank u = 1 := by
  simp [tokRank, h]

theorem Parser.next_token_spec (P P2 : Parser) (h : P.next_token = some P2) :
    P2.curr_token = P.peek_token ∧ P2.errors = P.errors ∧
    parserMeasure P2 ≤ parserMeasure P ∧
    (P.curr_token ≠ Token.Eof → parserMeasure P2 < parserMeasure P) := by
  unfold Parser.next_token at h
  cases hl : P.lexer.next with
  | none => rw [hl] at h; exact Option.noConfusion h
  | some p =>
    obtain ⟨t, Lx⟩ := p
    rw [hl] at h
    simp only [Option.some.injEq] at h
    subst h
    obtain ⟨-, -, -, c4, c5, -⟩ := next_spec P.lexer t Lx hl
    have hb : tokRank P.curr_token ≤ 1 := tokRank_le _
    refine ⟨rfl, rfl, ?_, ?_⟩
    · simp only [parserMeasure]
      by_cases ht : t = Token.Eof
      · have ht0 : tokRank t = 0 := by simp [tokRank, ht]
        omega
      · have ht1 : tokRank t = 1 := tokRank_of_ne t ht
        have hlt := c5 ht
        omega
    · intro hcc
      have hc1 : tokRank P.curr_token = 1 := tokRank_of_ne _ hcc
      simp only [parserMeasure]
      by_cases ht : t = Token.Eof
      · have ht0 : tokRank t = 0 := by simp [tokRank, ht]
        omega
      · have ht1 : tokRank t = 1 := tokRank_of_ne t ht
        have hlt := c5 ht
        omega

theorem Parser.error_next_token_measure (P : Parser) (tok : Token) :
    parserMeasure (P.error_next_token tok) = parserMeasure P := rfl

theorem Parser.error_next_token_curr (P : Parser) (tok : Token) :
    (P.error_next_token tok).curr_token = P.curr_token := rfl

theorem Parser.parse_ident_snd (P : Parser) : (P.parse_ident).2 = P := rfl

theorem Parser.parse_expression_snd (P : Parser) : (P.parse_expression).2 = P := by
  cases hc : P.curr_token <;>
    simp [Parser.parse_expression, Parser.parse_ident_expression,
      Parser.parse_int_expression, Parser.parse_int, Parser.parse_ident, hc]

theorem Parser.expect_peek_measure (P : Parser) (tok : Token) (b : Bool)
    (Q : Parser) (h : P.expect_peek_token tok = some (b, Q)) :
    parserMeasure Q ≤ parserMeasure P := by
  unfold Parser.expect_peek_token at h
  split at h
  · cases hnt : P.next_token with
    | none => rw [hnt] at h; exact Option.noConfusion h
    | some R =>
      rw [hnt] at h
      simp only [Option.some.injEq, Prod.mk.injEq] at h
      obtain ⟨-, h2⟩ := h
      subst h2
      exact (Parser.next_token_spec P R hnt).2.2.1
  · simp only [Option.some.injEq, Prod.mk.injEq] at h
    obtain ⟨-, h2⟩ := h
    subst h2
    rw [Parser.error_next_token_measure]

theorem Parser.parse_statement_of_ne_let (P : Parser)
    (h : P.curr_token ≠ Token.Let) : P.parse_statement = some (none, P) := by
  unfold Parser.parse_statement
  cases hc : P.curr_token <;> first | rfl | exact absurd hc h

theorem Parser.parse_let_statement_measure (P : Parser) (o : Option ast.Statement)
    (P1 : Parser) (hc : P.curr_token ≠ Token.Eof)
    (h : P.parse_let_statement = some (o, P1)) :
    parserMeasure P1 < parserMeasure P ∨
      (parserMeasure P1 = parserMeasure P ∧ P1.curr_token = P.curr_token) := by
  unfold Parser.parse_let_statement at h
  split at h
  · rename_i s hp
    split at h
    · exact Option.noConfusion h
    · rename_i Pa hnt
      have hlt : parserMeasure Pa < parserMeasure P :=
        (Parser.next_token_spec P Pa hnt).2.2.2 hc
      left
      split at h
      · rename_i P2 hpi
        have hP2 : Pa = P2 := by
          have hs := Parser.parse_ident_snd Pa
          rw [hpi] at hs
          exact hs.symm
        subst hP2
        simp only [Option.some.injEq, Prod.mk.injEq] at h
        obtain ⟨-, h2⟩ := h
        subst h2
        omega
      · rename_i name P2 hpi
        have hP2 : Pa = P2 := by
          have hs := Parser.parse_ident_snd Pa
          rw [hpi] at hs
          exact hs.symm
        subst hP2
        split at h
        · exact Option.noConfusion h
        · rename_i P3 hep
          have h3 : parserMeasure P3 ≤ parserMeasure Pa :=
            Parser.expect_peek_measure Pa Token.Assign false P3 hep
          simp only [Option.some.injEq, Prod.mk.injEq] at h
          obtain ⟨-, h2⟩ := h
          subst h2
          omega
        · rename_i P3 hep
          have h3 : parserMeasure P3 ≤ parserMeasure Pa :=
            Parser.expect_peek_measure Pa Token.Assign true P3 hep
          split at h
          · exact Option.noConfusion h
          · rename_i P4 hnt2
            have h4 : parserMeasure P4 ≤ parserMeasure P3 :=
              (Parser.next_token_spec P3 P4 hnt2).2.2.1
            split at h
            · rename_i P5 hpe
              have hP5 : P4 = P5 := by
                have hs := Parser.parse_expression_snd P4
                rw [hpe] at hs
                exact hs.symm
              subst hP5
              simp only [Option.some.injEq, Prod.mk.injEq] at h
              obtain ⟨-, h2⟩ := h
              subst h2
              omega
            · rename_i e P5 hpe
              have hP5 : P4 = P5 := by
                have hs := Parser.parse_expression_snd P4
                rw [hpe] at hs
                exact hs.symm
              subst hP5
              split at h
              · split at h
                · exact Option.noConfusion h
                · rename_i P6 hnt3
                  have h6 : parserMeasure P6 ≤ parserMeasure P4 :=
                    (Parser.next_token_spec P4 P6 hnt3).2.2.1
                  simp only [Option.some.injEq, Prod.mk.injEq] at h
                  obtain ⟨-, h2⟩ := h
                  subst h2
                  omega
              · simp only [Option.some.injEq, Prod.mk.injEq] at h
                obtain ⟨-, h2⟩ := h
                subst h2
                omega
  · simp only [Option.some.injEq, Prod.mk.injEq] at h
    obtain ⟨-, h2⟩ := h
    subst h2
    exact Or.inr ⟨rfl, rfl⟩

theorem Parser.parse_step_measure (P : Parser) (o : Option ast.Statement)
    (P1 P2 : Parser) (hc : P.curr_token ≠ Token.Eof)
    (h1 : P.parse_statement = some (o, P1)) (h2 : P1.next_token = some P2) :
    parserMeasure P2 < parserMeasure P := by
  by_cases hL : P.curr_token = Token.Let
  · have h1l : P.parse_let_statement = some (o, P1) := by
      unfold Parser.parse_statement at h1
      rw [hL] at h1
      exact h1
    rcases Parser.parse_let_statement_measure P o P1 hc h1l with hlt | ⟨hEq, hCur⟩
    · have := (Parser.next_token_spec P1 P2 h2).2.2.1
      omega
    · have hstrict := (Parser.next_token_spec P1 P2 h2).2.2.2 (by rw [hCur]; exact hc)
      omega
  · rw [Parser.parse_statement_of_ne_let P hL] at h1
    simp only [Option.some.injEq, Prod.mk.injEq] at h1
    obtain ⟨-, h1⟩ := h1
    subst h1
    exact (Parser.next_token_spec P P2 h2).2.2.2 hc

/- The statement loop of parse_program: fuel stability, the source loop
equation, and structural facts about its results. -/

theorem Parser.parse_program_go_stable :
    ∀ (n m : Nat) (P : Parser), parserMeasure P < n → parserMeasure P < m →
      Parser.parse_program_go n P = Parser.parse_program_go m P := by
  intro n
  induction n with
  | zero => intro m P hn _; exact absurd hn (by omega)
  | succ n ih =>
    intro m P hn hm
    obtain ⟨m2, rfl⟩ : ∃ m2, m = m2 + 1 := ⟨m - 1, by omega⟩
    simp only [Parser.parse_program_go]
    by_cases hEof : P.curr_token = Token.Eof
    · simp [hEof]
    · simp only [if_neg hEof]
      split
      · rfl
      · rename_i o P1 hps
        split
        · rfl
        · rename_i P2 hnt
          have hstep := Parser.parse_step_measure P o P1 P2 hEof hps hnt
          rw [ih m2 P2 (by omega) (by omega)]

/-- Faithfulness of the embedded parse_program: it satisfies the unfolding
equation of the source while loop, with the recursive occurrence being
parse_program itself, so the fuel argument of parse_program_go is
semantically invisible. -/
theorem Parser.parse_program_eq (P : Parser) :
    P.parse_program =
      (if P.curr_token = Token.Eof then some ([], P)
       else
         match P.parse_statement with
         | none => none
         | some (o, P1) =>
           match P1.next_token with
           | none => none
           | some P2 =>
             match P2.parse_program with
             | none => none
             | some (rest, P3) =>
               some ((match o with
                      | some s => s :: rest
                      | none => rest), P3)) := by
  have key : ∀ P2 : Parser, parserMeasure P2 < parserMeasure P →
      Parser.parse_program_go (parserMeasure P) P2 = P2.parse_program := by
    intro P2 h
    unfold Parser.parse_program
    exact Parser.parse_program_go_stable (parserMeasure P) (parserMeasure P2 + 1)
      P2 h (by omega)
  conv_lhs => unfold Parser.parse_program Parser.parse_program_go
  by_cases hEof : P.curr_token = Token.Eof
  · simp [hEof]
  · simp only [if_neg hEof]
    split
    · rfl
    · rename_i o P1 hps
      split
      · rfl
      · rename_i P2 hnt
        rw [key P2 (Parser.parse_step_measure P o P1 P2 hEof hps hnt)]

theorem Parser.parse_let_statement_only_let (P : Parser) (s : ast.Statement)
    (P1 : Parser) (h : P.parse_let_statement = some (some s, P1)) :
    stmtIsLet s = true := by
  unfold Parser.parse_let_statement at h
  split at h
  · split at h
    · exact Option.noConfusion h
    · split at h
      · simp only [Option.some.injEq, Prod.mk.injEq] at h
        exact Option.noConfusion h.1
      · split at h
        · exact Option.noConfusion h
        · simp only [Option.some.injEq, Prod.mk.injEq] at h
          exact Option.noConfusion h.1
        · split at h
          · exact Option.noConfusion h
          · split at h
            · simp only [Option.some.injEq, Prod.mk.injEq] at h
              exact Option.noConfusion h.1
            · split at h
              · split at h
                · exact Option.noConfusion h
                · simp only [Option.some.injEq, Prod.mk.injEq] at h
                  obtain ⟨h1, -⟩ := h
                  subst h1
                  rfl
              · simp only [Option.some.injEq, Prod.mk.injEq] at h
                obtain ⟨h1, -⟩ := h
                subst h1
                rfl
  · simp only [Option.some.injEq, Prod.mk.injEq] at h
    exact Option.noConfusion h.1

theorem Parser.parse_statement_only_let (P : Parser) (s : ast.Statement)
    (P1 : Parser) (h : P.parse_statement = some (some s, P1)) :
    stmtIsLet s = true := by
  by_cases hL : P.curr_token = Token.Let
  · apply Parser.parse_let_statement_only_let P s P1
    unfold Parser.parse_statement at h
    rw [hL] at h
    exact h
  · rw [Parser.parse_statement_of_ne_let P hL] at h
    simp only [Option.some.injEq, Prod.mk.injEq] at h
    exact Option.noConfusion h.1

theorem Parser.parse_program_go_final :
    ∀ (n : Nat) (P : Parser) (pr : ast.Program) (P2 : Parser),
      Parser.parse_program_go n P = some (pr, P2) →
      P2.curr_token = Token.Eof := by
  intro n
  induction n with
  | zero => intro P pr P2 h; exact Option.noConfusion h
  | succ n ih =>
    intro P pr P2 h
    simp only [Parser.parse_program_go] at h
    split at h
    · rename_i hEof
      simp only [Option.some.injEq, Prod.mk.injEq] at h
      obtain ⟨-, h2⟩ := h
      subst h2
      exact hEof
    · split at h
      · exact Option.noConfusion h
      · split at h
        · exact Option.noConfusion h
        · split at h
          · exact Option.noConfusion h
          · rename_i rest P3 hgo
            simp only [Option.some.injEq, Prod.mk.injEq] at h
            obtain ⟨-, h2⟩ := h
            subst h2
            rename_i P2x hnt heq
            exact ih _ _ _ hgo

theorem Parser.parse_program_go_all_let :
    ∀ (n : Nat) (P : Parser) (pr : ast.Program) (P2 : Parser),
      Parser.parse_program_go n P = some (pr, P2) → pr.all stmtIsLet = true := by
  intro n
  induction n with
  | zero => intro P pr P2 h; exact Option.noConfusion h
  | succ n ih =>
    intro P pr P2 h
    simp only [Parser.parse_program_go] at h
    split at h
    · simp only [Option.some.injEq, Prod.mk.injEq] at h
      obtain ⟨h1, -⟩ := h
      subst h1
      rfl
    · split at h
      · exact Option.noConfusion h
      · rename_i o P1 hps
        split at h
        · exact Option.noConfusion h
        · rename_i P2x hnt
          split at h
          · exact Option.noConfusion h
          · rename_i rest P3 hgo
            simp only [Option.some.injEq, Prod.mk.injEq] at h
            obtain ⟨h1, -⟩ := h
            subst h1
            cases o with
            | none => exact ih _ _ _ hgo
            | some s =>
              simp only [List.all_cons, Bool.and_eq_true]
              exact ⟨Parser.parse_statement_only_let P s P1 hps, ih _ _ _ hgo⟩

/- The claims. -/

/-- Claim C1: the claim says that for every input containing a decimal-digit
run whose numeric value exceeds the i64 domain, Lexer::next reports the
overflow as a recoverable in-band diagnostic and returns normally, never
panicking.  The code instead calls literal.parse().unwrap() in read_number
(src/lexer.rs line 142), which panics on overflow; on the 20-digit run
9223372036854775808 (one past the i64 maximum) the embedded next yields the
panic value none instead of any token or diagnostic. -/
theorem read_number_overflow_panics :
    Lexer.next (Lexer.new (strBytes "9223372036854775808")) = none := by decide

/-- Claim C2 counterexample: a parser state whose current token is a
semicolon (neither let nor the end-marker); parse_statement returns None and
the error list stays empty, so no unsupported-statement ParseError is
appended, contrary to the claim. -/
theorem parse_statement_silent_counterexample :
    pSemi.curr_token = Token.Semicolon ∧
    Parser.parse_statement pSemi = some (none, pSemi) ∧
    pSemi.errors = [] := by decide

/-- Claim C2 (amended): for every parser state whose current token is not
let (including states at the end-marker), parse_statement returns None and
leaves the parser state, in particular its error list, unchanged; no
unsupported-statement error is ever recorded. -/
theorem parse_statement_non_let_silent (P : Parser)
    (h : P.curr_token ≠ Token.Let) : P.parse_statement = some (none, P) :=
  Parser.parse_statement_of_ne_let P h

/-- Claim C2 witness: the amended theorem applied to the semicolon state. -/
theorem parse_statement_non_let_silent_witness :
    Parser.parse_statement pSemi = some (none, pSemi) :=
  parse_statement_non_let_silent pSemi (by decide)

/-- Claim C3 counterexample: two concrete refutations.  On the input
let x = ;, whose single let statement is malformed at the expression, the
parser records zero ParseErrors, not exactly one (parse_expression fails
silently).  On the input let x 5 let y = 10; the statement let y = 10 is
parsed even though no semicolon or end-marker lies between the malformed
statement and it, so recovery does not skip until a semicolon or the
end-marker; it retries a statement parse at every token. -/
theorem parse_program_recovery_counterexample :
    (parse_input (strBytes "let x = ;")).map (fun r => (r.1, r.2.length)) =
      some ([], 0) ∧
    (parse_input (strBytes "let x 5 let y = 10;")).map
        (fun r => (r.1, r.2.length)) =
      some ([ast.Statement.Let ⟨"y"⟩ (ast.Expr.Literal (ast.Literal.Int 10))], 1) := by
  decide

/-- Claim C3 (amended): after a malformed statement, parse_program skips
forward token by token, retrying a statement parse at every token rather than
waiting for a semicolon, and records at most one ParseError per malformed
statement, zero when the failure is an unsupported expression form; following
well-formed statements are still parsed, as on let x 5;\nlet y = 10; which
yields exactly one ParseError and still the statement let y = 10; and
whenever parse_program returns, the whole token stream has been consumed: the
final current token is the end-marker. -/
theorem parse_program_recovery_amended (P : Parser) (pr : ast.Program)
    (P2 : Parser) (h : P.parse_program = some (pr, P2)) :
    P2.curr_token = Token.Eof ∧
    (parse_input (strBytes "let x 5;\nlet y = 10;")).map
        (fun r => (r.1, r.2.length)) =
      some ([ast.Statement.Let ⟨"y"⟩ (ast.Expr.Literal (ast.Literal.Int 10))], 1) :=
  ⟨Parser.parse_program_go_final _ P pr P2 h, by decide⟩

/-- Claim C3 witness: the amended theorem applied to the parser state at the
end-marker over the empty input. -/
theorem parse_program_recovery_amended_witness :
    pDone.curr_token = Token.Eof ∧
    (parse_input (strBytes "let x 5;\nlet y = 10;")).map
        (fun r => (r.1, r.2.length)) =
      some ([ast.Statement.Let ⟨"y"⟩ (ast.Expr.Literal (ast.Literal.Int 10))], 1) :=
  parse_program_recovery_amended pDone [] pDone (by decide)

/-- Claim C4: the claim says the recorded message states that an identifier
was expected and names the actual peek token as what was got.  In the code,
parse_let_statement passes self.peek_token.clone() as the expected token to
error_next_token (src/parser.rs line 126), so on the input let = 10; with
peek Assign the recorded message is expected next token to be Assign, got
Assign instead: the expected slot names the peek token itself and never
mentions an identifier.  The statement does fail with no Let node, as
claimed. -/
theorem parse_let_statement_wrong_expected_message :
    ((Parser.new (Lexer.new (strBytes "let = 10;"))).bind
        (fun P => P.parse_let_statement)).map (fun r => (r.1, r.2.errors)) =
      some (none, [⟨ParseErrorKind.UnexpectedToken,
        "expected next token to be Assign, got Assign instead"⟩]) := by decide

/-- Claim C5 counterexample: a parser state whose current token is a
semicolon, neither an identifier nor an integer literal; parse_expression
returns None with the state unchanged and the error list stays empty, so no
unsupported-expression ParseError is appended, contrary to the claim. -/
theorem parse_expression_silent_counterexample :
    tokIsExprHead pSemi.curr_token = false ∧
    Parser.parse_expression pSemi = (none, pSemi) ∧
    pSemi.errors = [] := by decide

/-- Claim C5 (amended): for every parser state whose current token is neither
an identifier nor an integer literal, parse_expression returns None and
leaves the parser state, in particular its error list, unchanged; the failure
is silent. -/
theorem parse_expression_unsupported_silent (P : Parser)
    (h : tokIsExprHead P.curr_token = false) :
    P.parse_expression = (none, P) := by
  cases hc : P.curr_token
  case Ident s =>
    rw [hc] at h
    exact Bool.noConfusion h
  case Int n =>
    rw [hc] at h
    exact Bool.noConfusion h
  all_goals simp only [Parser.parse_expression, hc]

/-- Claim C5 witness: the amended theorem applied to the semicolon state. -/
theorem parse_expression_unsupported_silent_witness :
    Parser.parse_expression pSemi = (none, pSemi) :=
  parse_expression_unsupported_silent pSemi (by decide)

/-- Claim C6: parsing let x = 5;\nlet y = 10;\nlet foobar = 838383; yields a
Program of exactly three Let statements binding x, y, foobar to the integer
literals 5, 10, 838383 in that order, with an empty error list. -/
theorem parse_program_three_lets :
    parse_input (strBytes "let x = 5;\nlet y = 10;\nlet foobar = 838383;") =
      some ([ast.Statement.Let ⟨"x"⟩ (ast.Expr.Literal (ast.Literal.Int 5)),
             ast.Statement.Let ⟨"y"⟩ (ast.Expr.Literal (ast.Literal.Int 10)),
             ast.Statement.Let ⟨"foobar"⟩
               (ast.Expr.Literal (ast.Literal.Int 838383))], []) := by decide

/-- Claim C7: parsing let x 5;\nlet = 10;\nlet 838383; yields exactly three
ParseErrors, one per malformed let statement, and a Program containing no Let
statements from those lines (the Program is empty). -/
theorem parse_program_three_errors :
    (parse_input (strBytes "let x 5;\nlet = 10;\nlet 838383;")).map
        (fun r => (r.1, r.2.length)) = some ([], 3) := by decide

/-- Claim C8 counterexample: two concrete refutations.  Having yielded the
end-marker does not mean the input is exhausted: on the two-byte input made of
a NUL byte followed by the letter a, the first call to next yields the
end-marker yet the second call yields the identifier a.  And even on the
genuinely exhausted empty input the cursor keeps advancing: the read position
goes from 2 to 3 across two end-marker-yielding calls, so next does not stop
advancing. -/
theorem lexer_eof_counterexample :
    (Lexer.next (Lexer.new [0, 97])).map Prod.fst = some Token.Eof ∧
    ((Lexer.next (Lexer.new [0, 97])).bind
        (fun p => (Lexer.next p.2).map Prod.fst)) = some (Token.Ident "a") ∧
    (Lexer.next (Lexer.new [])).map (fun p => (p.1, p.2.read_position)) =
      some (Token.Eof, 2) ∧
    ((Lexer.next (Lexer.new [])).bind
        (fun p => (Lexer.next p.2).map (fun q => (q.1, q.2.read_position)))) =
      some (Token.Eof, 3) := by decide

/-- Claim C8 (amended): for every Lexer state that is genuinely exhausted
(the stored byte is the 0 sentinel and the read position is at or past the end
of input), every number of further next calls succeeds and yields states with
unchanged input and the sentinel still set, the integer cursor advanced by
exactly one per call, and the next token still the end-marker; no call fails
and no input byte is ever read again.  Merely having yielded the end-marker
once is not sufficient, since a NUL byte inside the input also yields it. -/
theorem lexer_exhausted_idempotent (L : Lexer) (h1 : L.ch = 0)
    (h2 : L.input.length ≤ L.read_position) (n : Nat) :
    lexIterate L (n + 1) =
      some ⟨L.input, L.read_position + n, L.read_position + n + 1, 0⟩ ∧
    (Lexer.next (⟨L.input, L.read_position + n, L.read_position + n + 1, 0⟩ : Lexer)).map
        Prod.fst = some Token.Eof := by
  refine ⟨exhausted_iterate L h1 h2 n, ?_⟩
  rw [next_at_zero _ rfl]
  rfl

/-- Claim C8 witness: the amended theorem applied to the exhausted lexer over
the empty input, run for three further calls. -/
theorem lexer_exhausted_idempotent_witness :
    lexIterate lexDone 3 =
      some ⟨lexDone.input, lexDone.read_position + 2, lexDone.read_position + 2 + 1, 0⟩ ∧
    (Lexer.next (⟨lexDone.input, lexDone.read_position + 2,
        lexDone.read_position + 2 + 1, 0⟩ : Lexer)).map Prod.fst =
      some Token.Eof :=
  lexer_exhausted_idempotent lexDone rfl (by decide) 2

/-- Claim C9 counterexample: on the input of twenty 9 digits the very first
call to Lexer::next hits the numeric-overflow panic of read_number (modelled
as none), so lexing this input never reaches the end-marker and the claim
that lexing of any input terminates at the end-marker fails. -/
theorem lexer_progress_counterexample :
    Lexer.next (Lexer.new (strBytes "99999999999999999999")) = none := by decide

/-- Claim C9 (amended): every call to Lexer::next that returns normally
advances the read cursor strictly forward by at least one byte and leaves the
position at or past the old read cursor; and from any state, within
lexMeasure further calls the lexer either hits the numeric-overflow panic or
reaches a state that yields the end-marker, so lexing terminates on every
input, by the end-marker or by the panic. -/
theorem lexer_progress_amended (L : Lexer) (t : Token) (L2 : Lexer)
    (h : L.next = some (t, L2)) :
    L.read_position < L2.read_position ∧ L.read_position ≤ L2.position ∧
    (lexIterate L (lexMeasure L) = none ∨
      (lexIterate L (lexMeasure L)).bind
        (fun M => (Lexer.next M).map Prod.fst) = some Token.Eof) := by
  obtain ⟨-, c2, c3, -, -, -⟩ := next_spec L t L2 h
  exact ⟨c2, c3, reach_eof_aux (lexMeasure L) L (Nat.le_refl _)⟩

/-- Claim C9 witness: the amended theorem applied to the one-letter input x,
whose first next call succeeds with the identifier token. -/
theorem lexer_progress_amended_witness :
    (Lexer.new (strBytes "x")).read_position <
      (⟨strBytes "x", 1, 2, 0⟩ : Lexer).read_position ∧
    (Lexer.new (strBytes "x")).read_position ≤
      (⟨strBytes "x", 1, 2, 0⟩ : Lexer).position ∧
    (lexIterate (Lexer.new (strBytes "x")) (lexMeasure (Lexer.new (strBytes "x"))) = none ∨
      (lexIterate (Lexer.new (strBytes "x"))
          (lexMeasure (Lexer.new (strBytes "x")))).bind
        (fun M => (Lexer.next M).map Prod.fst) = some Token.Eof) :=
  lexer_progress_amended (Lexer.new (strBytes "x")) (Token.Ident "x")
    ⟨strBytes "x", 1, 2, 0⟩ (by decide)

/-- Claim C10: every Statement in a Program returned by parse_program is the
Let variant; the Return and expression-statement variants are never produced
by any parse routine. -/
theorem parse_program_only_let_statements (P : Parser) (pr : ast.Program)
    (P2 : Parser) (h : P.parse_program = some (pr, P2)) :
    pr.all stmtIsLet = true :=
  Parser.parse_program_go_all_let _ P pr P2 h

/-- Claim C10 witness: the theorem applied to the primed parser over
let a = 1;, whose program holds one Let statement. -/
theorem parse_program_only_let_statements_witness :
    ([ast.Statement.Let ⟨"a"⟩ (ast.Expr.Literal (ast.Literal.Int 1))] : ast.Program).all
        stmtIsLet = true :=
  parse_program_only_let_statements pLetA
    [ast.Statement.Let ⟨"a"⟩ (ast.Expr.Literal (ast.Literal.Int 1))]
    ⟨⟨strBytes "let a = 1;", 12, 13, 0⟩, Token.Eof, Token.Eof, []⟩ (by decide)
